import Mathlib

set_option maxHeartbeats 1000000

/-!
Shallow embedding of the NIWC resume builder core
(`resume_builder_core.py` and `llm_enhancer.py`), together with proofs
settling the specification claims about it.

Python strings are modelled as Lean `String` / `List Char`; the regular
expression passes of `clean_bullet_points` are modelled character by
character, following the scanning semantics of `re.sub` (leftmost,
non-overlapping, greedy).  Character classes are modelled on the ASCII
range used by this code: Python's `\s`, `\d`, `str.upper` also accept
rare Unicode code points that the resume pipeline never produces.
-/

/-- Models Python's `\s` character class and the character set stripped by
`str.strip()` (ASCII whitespace; `\x0b` and `\x0c` are `\v` and `\f`). -/
def pySpace (c : Char) : Bool :=
  c == ' ' || c == '\t' || c == '\n' || c == '\r' || c == '\x0B' || c == '\x0C'

/-- The bullet glyph class `[•\*\-‣⁃◦→▪️●■]` of `llm_enhancer.py`.  The source
writes `▪️` which is U+25AA followed by the variation selector U+FE0F, so the
class contains both code points. -/
def isGlyph (c : Char) : Bool :=
  c == '•' || c == '*' || c == '-' || c == '‣' || c == '⁃' || c == '◦' ||
  c == '→' || c == '▪' || c == '\uFE0F' || c == '●' || c == '■'

/-- The narrower glyph class `[•\*\-]` used by the first per-line pass of
`clean_bullet_points`. -/
def isGlyph1 (c : Char) : Bool :=
  c == '•' || c == '*' || c == '-'

/-- Python `str.strip()` on a character list. -/
def pyStrip (l : List Char) : List Char :=
  ((l.dropWhile pySpace).reverse.dropWhile pySpace).reverse

/-- Worker for `splitlines`: `acc` holds the characters of the current line
in reverse order. -/
def splitGo (acc : List Char) : List Char → List (List Char)
  | [] => [acc.reverse]
  | c :: rest =>
    if c = '\n' then
      match rest with
      | [] => [acc.reverse]
      | _ :: _ => acc.reverse :: splitGo [] rest
    else splitGo (c :: acc) rest

/-- Python `str.splitlines()` restricted to `\n` line breaks (the only line
terminator this pipeline produces).  `""` yields `[]` and a trailing `\n`
does not yield a trailing empty line, as in Python. -/
def splitlines : List Char → List (List Char)
  | [] => []
  | l => splitGo [] l

/-- Python `sep.join(lines)` for a single separator character. -/
def joinSep (sep : Char) : List (List Char) → List Char
  | [] => []
  | [l] => l
  | l :: ls => l ++ sep :: joinSep sep ls

/-- Python `str.replace('$', '\\$')`: every occurrence of `$` is replaced by
the two characters `\$` (`resume_builder_core.py`, line 138). -/
def replaceDollar : List Char → List Char
  | [] => []
  | c :: rest => if c = '$' then '\\' :: '$' :: replaceDollar rest else c :: replaceDollar rest

/-- String-level wrapper of `replaceDollar`. -/
def replaceDollarStr (s : String) : String := ⟨replaceDollar s.data⟩

mutual
/-- A Python value reachable in the resume data structure, as traversed by
`sanitize_resume_data`: nested dicts and lists over string, number, boolean
and `None` leaves. -/
inductive PyData where
  | str : String → PyData
  | num : ℚ → PyData
  | boolV : Bool → PyData
  | null : PyData
  | dict : PyEntries → PyData
  | arr : PyList → PyData
inductive PyList where
  | nil : PyList
  | cons : PyData → PyList → PyList
inductive PyEntries where
  | nil : PyEntries
  | cons : String → PyData → PyEntries → PyEntries
end

mutual
/-- `ResumeBuilderCore.sanitize_resume_data` (`resume_builder_core.py`,
lines 123-139): dicts are rebuilt with the same keys and sanitized values,
lists are mapped element-wise, strings get `$` escaped, everything else is
returned unchanged. -/
def sanitize_resume_data : PyData → PyData
  | .str s => .str (replaceDollarStr s)
  | .num q => .num q
  | .boolV b => .boolV b
  | .null => .null
  | .dict es => .dict (sanitizeEntries es)
  | .arr xs => .arr (sanitizeList xs)
/-- List branch of `sanitize_resume_data`. -/
def sanitizeList : PyList → PyList
  | .nil => .nil
  | .cons d tl => .cons (sanitize_resume_data d) (sanitizeList tl)
/-- Dict branch of `sanitize_resume_data` (keys preserved, values sanitized). -/
def sanitizeEntries : PyEntries → PyEntries
  | .nil => .nil
  | .cons k v tl => .cons k (sanitize_resume_data v) (sanitizeEntries tl)
end

mutual
/-- Erases the contents of every string leaf (replacing it with `""`) while
keeping dict keys, list structure and all non-string leaves.  Two values have
the same `eraseStrings` image exactly when they differ at most in the
contents of their string leaves. -/
def eraseStrings : PyData → PyData
  | .str _ => .str ""
  | .num q => .num q
  | .boolV b => .boolV b
  | .null => .null
  | .dict es => .dict (eraseEntries es)
  | .arr xs => .arr (eraseList xs)
/-- List branch of `eraseStrings`. -/
def eraseList : PyList → PyList
  | .nil => .nil
  | .cons d tl => .cons (eraseStrings d) (eraseList tl)
/-- Dict branch of `eraseStrings`. -/
def eraseEntries : PyEntries → PyEntries
  | .nil => .nil
  | .cons k v tl => .cons k (eraseStrings v) (eraseEntries tl)
end

mutual
/-- All string leaves reachable in a value, in traversal order. -/
def stringsOf : PyData → List String
  | .str s => [s]
  | .num _ => []
  | .boolV _ => []
  | .null => []
  | .dict es => entryStringsOf es
  | .arr xs => listStringsOf xs
/-- List branch of `stringsOf`. -/
def listStringsOf : PyList → List String
  | .nil => []
  | .cons d tl => stringsOf d ++ listStringsOf tl
/-- Dict branch of `stringsOf`. -/
def entryStringsOf : PyEntries → List String
  | .nil => []
  | .cons _ v tl => stringsOf v ++ entryStringsOf tl
end

/-- `true` when the character list contains a `$` that is not immediately
preceded by a backslash (a "bare" dollar, unescaped for LaTeX). -/
def hasBareDollar : List Char → Bool
  | [] => false
  | [c] => if c = '$' then true else false
  | c :: d :: rest =>
    if c = '$' then true
    else if c = '\\' ∧ d = '$' then hasBareDollar rest
    else hasBareDollar (d :: rest)

/-- Scanner state for the `re.sub(r'^(\s*)[•\*\-]\s+|\d+\.\s+', leading_space, line)`
pass: after the (optional) anchored alternative is handled, the unanchored
alternative `\d+\.\s+` is searched for left to right.  `digits acc` holds the
digit run read so far (reversed), `afterDot acc` means the run was followed by
`.`, and `ws` consumes the greedy `\s+` tail of a match. -/
inductive NumScanSt where
  | normal : NumScanSt
  | digits : List Char → NumScanSt
  | afterDot : List Char → NumScanSt
  | ws : NumScanSt

/-- Characters pending in a scanner state when the input ends without a match. -/
def numFlush : NumScanSt → List Char
  | .normal => []
  | .digits acc => acc.reverse
  | .afterDot acc => acc.reverse ++ ['.']
  | .ws => []

/-- Left-to-right scan replacing every occurrence of `\d+\.\s+` by `lead`
(the captured leading whitespace), with Python `re.sub` semantics: leftmost
match wins, `\d+` and `\s+` are greedy, scanning resumes after the match. -/
def numScan (lead : List Char) (st : NumScanSt) : List Char → List Char
  | [] => numFlush st
  | c :: rest =>
    match st with
    | .normal =>
      if c.isDigit then numScan lead (.digits [c]) rest
      else c :: numScan lead .normal rest
    | .digits acc =>
      if c.isDigit then numScan lead (.digits (c :: acc)) rest
      else if c = '.' then numScan lead (.afterDot acc) rest
      else acc.reverse ++ c :: numScan lead .normal rest
    | .afterDot acc =>
      if pySpace c then lead ++ numScan lead .ws rest
      else if c.isDigit then acc.reverse ++ '.' :: numScan lead (.digits [c]) rest
      else acc.reverse ++ '.' :: c :: numScan lead .normal rest
    | .ws =>
      if pySpace c then numScan lead .ws rest
      else if c.isDigit then numScan lead (.digits [c]) rest
      else c :: numScan lead .normal rest

/-- First per-line pass of `clean_bullet_points` (`llm_enhancer.py`, line 53):
`re.sub(r'^(\s*)[•\*\-]\s+|\d+\.\s+', leading_space, line)`.  The first
alternative is anchored, so it can only fire once, at the start: leading
whitespace, one glyph from `[•\*\-]`, then at least one whitespace character
(all greedy).  Every match is replaced by the captured leading whitespace of
the original line, and the rest of the line is scanned for `\d+\.\s+`. -/
def sub1 (l : List Char) : List Char :=
  let lead := l.takeWhile pySpace
  match l.dropWhile pySpace with
  | g :: t =>
    if isGlyph1 g then
      if (t.takeWhile pySpace).isEmpty then numScan lead .normal l
      else lead ++ numScan lead .normal (t.dropWhile pySpace)
    else numScan lead .normal l
  | [] => numScan lead .normal l

/-- Second per-line pass (`llm_enhancer.py`, line 57):
`re.sub(r'^(\s*)(?:[•\*\-‣⁃◦→▪️●■]+\s*)+', r'\1', line)`.  Anchored: if the
first non-whitespace character is a glyph, the whole maximal glyph/whitespace
run following the leading whitespace is removed and the leading whitespace is
kept. -/
def sub2 (l : List Char) : List Char :=
  match l.dropWhile pySpace with
  | c :: _ =>
    if isGlyph c then
      l.takeWhile pySpace ++ (l.dropWhile pySpace).dropWhile (fun x => isGlyph x || pySpace x)
    else l
  | [] => l

/-- Scanner state for the third per-line pass and the final whole-text pass. -/
inductive GlyphScanSt where
  | norm : GlyphScanSt
  | seenGlyph : Char → GlyphScanSt
  | inWs : GlyphScanSt

/-- Third per-line pass (`llm_enhancer.py`, line 61):
`re.sub(r'[•\*\-‣⁃◦→▪️●■]\s+', '', line)` — every glyph followed by at least
one whitespace character is removed together with the (greedy) whitespace
run; a glyph not followed by whitespace stays. -/
def sub3 (st : GlyphScanSt) : List Char → List Char
  | [] =>
    match st with
    | .seenGlyph g => [g]
    | _ => []
  | c :: rest =>
    match st with
    | .norm =>
      if isGlyph c then sub3 (.seenGlyph c) rest else c :: sub3 .norm rest
    | .seenGlyph g =>
      if pySpace c then sub3 .inWs rest
      else if isGlyph c then g :: sub3 (.seenGlyph c) rest
      else g :: c :: sub3 .norm rest
    | .inWs =>
      if pySpace c then sub3 .inWs rest
      else if isGlyph c then sub3 (.seenGlyph c) rest
      else c :: sub3 .norm rest

/-- Capitalization step (`llm_enhancer.py`, lines 64-69): match
`^(\s*)(.+)$`; when the content group is non-blank, uppercase its first
character.  `groups` backtracks so that the content is non-empty, hence for
an all-whitespace line the content is its last (whitespace) character and the
step is skipped.  Note the Python conditional expression drops the leading
whitespace when the content is a single character. -/
def capStep (l : List Char) : List Char :=
  match l.dropWhile pySpace with
  | [] => l
  | [c] => [c.toUpper]
  | c :: rest => l.takeWhile pySpace ++ c.toUpper :: rest

/-- Terminal punctuation step (`llm_enhancer.py`, lines 72-73): when the
stripped line is non-empty and does not already end with `.`, a period is
appended. -/
def periodStep (l : List Char) : List Char :=
  let s := pyStrip l
  if s = [] then l
  else if s.getLast? = some '.' then l
  else l ++ ['.']

/-- The per-line body of `clean_bullet_points`' loop, applied to non-empty
lines. -/
def processLine (l : List Char) : List Char :=
  periodStep (capStep (sub3 .norm (sub2 (sub1 l))))

/-- The loop of `clean_bullet_points`: empty lines are skipped (`if not
line: continue`), all other lines are processed. -/
def processLines (L : List (List Char)) : List (List Char) :=
  L.filterMap (fun l => if l = [] then none else some (processLine l))

/-- Final whole-text pass (`llm_enhancer.py`, line 81):
`re.sub(r'[•\*\-‣⁃◦→▪️●■]\s*', '', result)` — every glyph is removed together
with any (possibly empty) whitespace run that follows it. -/
def finalPass (st : GlyphScanSt) : List Char → List Char
  | [] => []
  | c :: rest =>
    match st with
    | .norm => if isGlyph c then finalPass .inWs rest else c :: finalPass .norm rest
    | _ =>
      if pySpace c then finalPass .inWs rest
      else if isGlyph c then finalPass .inWs rest
      else c :: finalPass .norm rest

/-- `clean_bullet_points` (`llm_enhancer.py`, lines 28-83) on a character
list: split into lines, drop empty lines, per-line passes, join with `\n`,
final whole-text glyph removal. -/
def cleanCore (t : List Char) : List Char :=
  finalPass .norm (joinSep '\n' (processLines (splitlines t)))

/-- `clean_bullet_points` on Lean strings. -/
def clean_bullet_points (s : String) : String := ⟨cleanCore s.data⟩

/-- Envelope marker for experience responses. -/
def expMarker : List Char := "### Experience ###".data

/-- Envelope marker for bio responses. -/
def bioMarker : List Char := "### Professional Summary ###".data

/-- Envelope marker for activity responses. -/
def actMarker : List Char := "### Activities ###".data

/-- The line loop shared by `parse_experience` and `parse_activity`
(`llm_enhancer.py`, lines 322-327 and 362-367): a line whose stripped form
equals the marker turns collection on (and is itself never collected, even
when it appears again later); all other lines after the first marker are
collected verbatim. -/
def collectContent (m : List Char) : List (List Char) → Bool → List (List Char)
  | [], _ => []
  | l :: ls, flag =>
    if pyStrip l = m then collectContent m ls true
    else if flag then l :: collectContent m ls flag
    else collectContent m ls flag

/-- `parse_experience` (`llm_enhancer.py`, lines 308-332): collect the lines
after the `### Experience ###` marker, join with `\n`, clean, strip. -/
def parse_experience (t : String) : String :=
  ⟨pyStrip (cleanCore (joinSep '\n' (collectContent expMarker (splitlines t.data) false)))⟩

/-- `parse_activity` (`llm_enhancer.py`, lines 348-372): collect the lines
after the `### Activities ###` marker, join with `\n`, clean, strip. -/
def parse_activity (t : String) : String :=
  ⟨pyStrip (cleanCore (joinSep '\n' (collectContent actMarker (splitlines t.data) false)))⟩

/-- The accumulation loop of `parse_bio` (`llm_enhancer.py`, lines 337-344):
each line is stripped first; a stripped line equal to the marker turns
collection on; afterwards each stripped line is appended followed by a single
space.  `clean_bullet_points` is never invoked. -/
def bioAccum : List (List Char) → Bool → List Char
  | [], _ => []
  | l :: ls, flag =>
    if pyStrip l = bioMarker then bioAccum ls true
    else if flag then pyStrip l ++ ' ' :: bioAccum ls flag
    else bioAccum ls flag

/-- `parse_bio` (`llm_enhancer.py`, lines 334-345). -/
def parse_bio (t : String) : String :=
  ⟨pyStrip (bioAccum (splitlines t.data) false)⟩

/-- Compositional description of the collection step: the lines after the
first line that strips to the marker, with any further marker lines removed. -/
def linesAfterMarker (m : List Char) (L : List (List Char)) : List (List Char) :=
  ((L.dropWhile (fun l => decide (pyStrip l ≠ m))).drop 1).filter
    (fun l => decide (pyStrip l ≠ m))

/-- Compositional form of `parse_experience`: lines after the marker, joined
with newlines, fed to the sanitizer, trimmed. -/
def expSpecOutput (t : String) : String :=
  ⟨pyStrip (cleanCore (joinSep '\n' (linesAfterMarker expMarker (splitlines t.data))))⟩

/-- Compositional form of `parse_activity`. -/
def actSpecOutput (t : String) : String :=
  ⟨pyStrip (cleanCore (joinSep '\n' (linesAfterMarker actMarker (splitlines t.data))))⟩

/-- Compositional form of what `parse_bio` actually does: stripped lines
after the marker, joined with single spaces, trimmed — without the
sanitizer. -/
def bioActualOutput (t : String) : String :=
  ⟨pyStrip (joinSep ' ' ((linesAfterMarker bioMarker (splitlines t.data)).map pyStrip))⟩

/-- Modelled from the spec's words for the bio branch of the response parser
(spec §4.4): collect the lines after the marker, join them with single
spaces into one line, feed the collected block to the Sanitizer
(`clean_bullet_points`), return the trimmed result.  Used to compare the
claimed behaviour with the implemented `parse_bio`. -/
def bioClaimedOutput (t : String) : String :=
  ⟨pyStrip (cleanCore (joinSep ' ' ((linesAfterMarker bioMarker (splitlines t.data)).map pyStrip)))⟩

/-- Trailing-space accumulation: `l₁ ++ " " ++ l₂ ++ " " ++ ...` as built by
`bio_content += line + ' '`. -/
def concatTrail : List (List Char) → List Char
  | [] => []
  | l :: ls => l ++ ' ' :: concatTrail ls

/-- Outcome-relevant state of one `run_render_script` call: the exit code and
stderr of the shell script, and the files found in the output directory after
it ran (the directory was cleared of PDFs beforehand). -/
structure RenderRun where
  returncode : Int
  stderr : String
  outputFiles : List String

/-- The reconciliation logic of `run_render_script`
(`resume_builder_core.py`, lines 342-364): a non-zero exit returns the
stderr; otherwise the PDFs in the output directory are counted and exactly 4
are required, else a diagnostic naming expected and actual counts is
returned with an empty artifact list. -/
def run_render_reconcile (r : RenderRun) : Bool × String × List String :=
  if r.returncode ≠ 0 then (false, r.stderr, [])
  else
    let new_pdfs := r.outputFiles.filter (fun f => ".pdf".data.isSuffixOf f.data)
    if new_pdfs.length ≠ 4 then
      (false, "Expected 4 PDFs, but found " ++ toString new_pdfs.length, [])
    else (true, "", new_pdfs)

/-- The four themes rendered per run (`resume_builder_core.py`, line 324). -/
def themes : List String := ["classic", "moderncv", "sb2nov", "engineeringresumes"]

/-- YAML description filename for a person/timestamp/theme
(`resume_builder_core.py`, lines 251 and 325). -/
def yamlFilename (name ts theme : String) : String :=
  name ++ "_" ++ ts ++ "_resume_" ++ theme ++ "_CV.yaml"

/-- The keep-set built by the housekeeping step of `run_render_script`
(lines 321-325): full paths of the four YAML files for `self.current_name`
and the timestamp taken with `datetime.now()` *inside `run_render_script`*
(`os.path.join` modelled as `/`-concatenation). -/
def currentYamls (dir name ts : String) : List String :=
  themes.map (fun th => dir ++ "/" ++ yamlFilename name ts th)

/-- The housekeeping step (lines 328-331): every file in the YAML directory
whose full path is not in the keep-set and whose name ends in `.yaml` is
removed.  Returns the surviving files. -/
def cleanupSurvivors (dir : String) (files : List String) (name tsNow : String) :
    List String :=
  files.filter (fun f =>
    (currentYamls dir name tsNow).contains (dir ++ "/" ++ f) ||
      !(".yaml".data.isSuffixOf f.data))

/-- An education entry as produced by `format_input_data`
(`resume_builder_core.py`, lines 82-90) and consumed by
`generate_resume_yaml`: `gpa` is absent when the input had none, `address`
and `zip` are read with `edu.get(...)` and may be absent. -/
structure EduInput where
  school : String
  typ : String
  city : Option String
  state : Option String
  address : Option String
  zip : Option String
  gpa : Option ℚ
  gpa_max : ℚ
deriving DecidableEq

/-- The assembled education entry of the document description
(`generate_resume_yaml`). -/
structure EduOut where
  institution : String
  area : String
  location : Option String
  highlights : Option (List String)
deriving DecidableEq

/-- Python truthiness of `edu.get(key)` for an optional string: `None` and
`""` are falsy. -/
def optFilled : Option String → Bool
  | none => false
  | some s => if s = "" then false else true

/-- The optional location parts appended behind `if edu.get(...)` guards. -/
def optPart : Option String → List String
  | none => []
  | some s => if s = "" then [] else [s]

/-- Decimal rendering of a float value for the `GPA:` highlight.  A Python
float prints as a decimal numeral; this model renders integral values as
`n.0` and non-integral rationals as `num/den` (the exact decimal digits of
the float repr are outside the scope of the claims, which concern the
presence and shape of the highlight). -/
def floatStr (q : ℚ) : String :=
  if q.den = 1 then toString q.num ++ ".0"
  else toString q.num ++ "/" ++ toString q.den

/-- The per-entry education assembly of `generate_resume_yaml`
(`resume_builder_core.py`, lines 173-194): entries with a falsy `school` are
dropped; the location is included only when both city and state are truthy;
the GPA highlight is added only when `edu.get("gpa")` is truthy (so `0.0`
and absence both suppress it). -/
def buildEduEntry (edu : EduInput) : Option EduOut :=
  if edu.school = "" then none
  else some
    { institution := edu.school
      area := edu.typ
      location :=
        if optFilled edu.city && optFilled edu.state then
          some (String.intercalate ", "
            (optPart edu.address ++
              [edu.city.getD "", edu.state.getD ""] ++ optPart edu.zip))
        else none
      highlights :=
        match edu.gpa with
        | some g =>
          if g = 0 then none
          else some ["GPA: " ++ floatStr g ++ "/" ++ floatStr edu.gpa_max]
        | none => none }

/-- The education section (lines 172-197): assembled entries, or `none` when
no entry survives (the section is omitted). -/
def educationSection (edus : List EduInput) : Option (List EduOut) :=
  let l := edus.filterMap buildEduEntry
  if l = [] then none else some l

/-- Input lines that are empty are removed; used to state that
`clean_bullet_points` ignores empty input lines. -/
def removeEmptyLines (t : String) : String :=
  ⟨joinSep '\n' ((splitlines t.data).filter (fun l => !l.isEmpty))⟩

/-- `true` when the list contains three consecutive characters digit, `.`,
whitespace — exactly when the unanchored alternative `\d+\.\s+` of the first
per-line pass has a match. -/
def hasDigitDotWs : List Char → Bool
  | a :: b :: c :: rest =>
    (a.isDigit && (b == '.') && pySpace c) || hasDigitDotWs (b :: c :: rest)
  | _ => false

/-- A line is already clean when it is non-empty, newline-free, starts with a
non-whitespace character that uppercasing fixes, contains no bullet glyph,
contains no digit-period-whitespace occurrence (so `\d+\.\s+` cannot match),
and its stripped form ends with a period. -/
def cleanLineB (l : List Char) : Bool :=
  (match l.head? with
   | some c => !pySpace c && (c.toUpper == c)
   | none => false) &&
  l.all (fun c => !isGlyph c && !(c == '\n')) &&
  !hasDigitDotWs l &&
  ((pyStrip l).getLast? == some '.')

/-- Education input with a present but zero GPA (Python truthiness treats
`0.0` as falsy). -/
def eduGpaZero : EduInput :=
  ⟨"State U", "Undergraduate", some "Springfield", some "VA", none, none, some 0, 4⟩

/-- Education input with a present non-zero GPA. -/
def eduGpaThree : EduInput :=
  ⟨"State U", "Undergraduate", some "Springfield", some "VA", none, none, some 3, 4⟩

/-! ## Lemmas about `replaceDollar` and `sanitize_resume_data` -/

theorem replaceDollar_head_ne_dollar :
    ∀ s : List Char, (replaceDollar s).head? ≠ some '$'
  | [] => by simp [replaceDollar]
  | c :: rest => by
    by_cases h : c = '$' <;> simp [replaceDollar, h]

theorem hasBareDollar_replaceDollar :
    ∀ s : List Char, hasBareDollar (replaceDollar s) = false := by
  intro s
  induction s with
  | nil => rfl
  | cons c rest ih =>
    by_cases h : c = '$'
    · subst h
      show hasBareDollar ('\\' :: '$' :: replaceDollar rest) = false
      cases hr : replaceDollar rest with
      | nil => rfl
      | cons d out =>
        rw [hasBareDollar]
        · simpa [hr] using ih
    · simp only [replaceDollar, if_neg h]
      cases hr : replaceDollar rest with
      | nil => simp [hasBareDollar, h]
      | cons d out =>
        have hd : d ≠ '$' := by
          intro hd
          exact replaceDollar_head_ne_dollar rest (by simp [hr, hd])
        rw [hasBareDollar]
        simp only [if_neg h]
        rw [if_neg (by rintro ⟨-, h2⟩; exact hd h2)]
        simpa [hr] using ih

theorem replaceDollar_of_not_mem {s : List Char} (h : '$' ∉ s) :
    replaceDollar s = s := by
  induction s with
  | nil => rfl
  | cons c rest ih =>
    have hc : c ≠ '$' := fun hc => h (by simp [hc])
    simp only [replaceDollar, if_neg hc]
    rw [ih (fun hm => h (List.mem_cons_of_mem _ hm))]

theorem length_replaceDollar (s : List Char) :
    (replaceDollar s).length = s.length + s.count '$' := by
  induction s with
  | nil => rfl
  | cons c rest ih =>
    by_cases h : c = '$' <;>
      simp [replaceDollar, h, ih, List.count_cons] <;> omega

theorem count_dollar_replaceDollar (s : List Char) :
    (replaceDollar s).count '$' = s.count '$' := by
  induction s with
  | nil => rfl
  | cons c rest ih =>
    by_cases h : c = '$' <;>
      simp [replaceDollar, h, ih, List.count_cons]

mutual
theorem stringsOf_sanitize :
    ∀ d : PyData, stringsOf (sanitize_resume_data d) = (stringsOf d).map replaceDollarStr
  | .str _ => rfl
  | .num _ => rfl
  | .boolV _ => rfl
  | .null => rfl
  | .dict es => stringsOf_sanitizeEntries es
  | .arr xs => stringsOf_sanitizeList xs
theorem stringsOf_sanitizeList :
    ∀ xs : PyList, listStringsOf (sanitizeList xs) = (listStringsOf xs).map replaceDollarStr
  | .nil => rfl
  | .cons d tl => by
    show stringsOf (sanitize_resume_data d) ++ listStringsOf (sanitizeList tl) = _
    rw [stringsOf_sanitize d, stringsOf_sanitizeList tl, listStringsOf, List.map_append]
theorem stringsOf_sanitizeEntries :
    ∀ es : PyEntries, entryStringsOf (sanitizeEntries es) = (entryStringsOf es).map replaceDollarStr
  | .nil => rfl
  | .cons k v tl => by
    show stringsOf (sanitize_resume_data v) ++ entryStringsOf (sanitizeEntries tl) = _
    rw [stringsOf_sanitize v, stringsOf_sanitizeEntries tl, entryStringsOf, List.map_append]
end

mutual
theorem eraseStrings_sanitize :
    ∀ d : PyData, eraseStrings (sanitize_resume_data d) = eraseStrings d
  | .str _ => rfl
  | .num _ => rfl
  | .boolV _ => rfl
  | .null => rfl
  | .dict es => congrArg PyData.dict (eraseEntries_sanitize es)
  | .arr xs => congrArg PyData.arr (eraseList_sanitize xs)
theorem eraseList_sanitize :
    ∀ xs : PyList, eraseList (sanitizeList xs) = eraseList xs
  | .nil => rfl
  | .cons d tl => by
    show PyList.cons (eraseStrings (sanitize_resume_data d)) (eraseList (sanitizeList tl)) = _
    rw [eraseStrings_sanitize d, eraseList_sanitize tl, eraseList]
theorem eraseEntries_sanitize :
    ∀ es : PyEntries, eraseEntries (sanitizeEntries es) = eraseEntries es
  | .nil => rfl
  | .cons k v tl => by
    show PyEntries.cons k (eraseStrings (sanitize_resume_data v)) (eraseEntries (sanitizeEntries tl)) = _
    rw [eraseStrings_sanitize v, eraseEntries_sanitize tl, eraseEntries]
end

/-! ## Claims C1, C9 (the `$` sanitizer) -/

/-- C1 counterexample: the claim that a second `sanitize_resume_data` pass
leaves every string unchanged fails on the string `"$"`: the first pass
yields `"\$"`, the second escapes the remaining `$` again and yields
`"\\$"`. -/
theorem sanitize_resume_data_second_pass_changes :
    sanitize_resume_data (sanitize_resume_data (.str "$")) ≠
      sanitize_resume_data (.str "$") := by
  intro h
  have h2 := congrArg stringsOf h
  simp only [sanitize_resume_data, stringsOf, replaceDollarStr] at h2
  have h3 : replaceDollar (replaceDollar "$".data) = replaceDollar "$".data := by
    have := List.head_eq_of_cons_eq (congrArg String.data (List.head_eq_of_cons_eq h2).symm).symm
    exact congrArg String.data (List.head_eq_of_cons_eq h2)
  exact absurd h3 (by decide)

/-- C1 (amended): one pass of `sanitize_resume_data` applies the `$`
replacement to every string reachable in the structure, and after it no
string contains a bare (unescaped) `$`; however a second pass is *not* the
identity: it is the identity on a string exactly when the string contained no
`$` (each `\$` produced by the first pass becomes `\\$` under a second
pass). -/
theorem sanitize_resume_data_escape_amended :
    (∀ d : PyData,
        stringsOf (sanitize_resume_data d) = (stringsOf d).map replaceDollarStr) ∧
    (∀ s : List Char, hasBareDollar (replaceDollar s) = false) ∧
    (∀ s : List Char, replaceDollar (replaceDollar s) = replaceDollar s ↔ '$' ∉ s) := by
  refine ⟨stringsOf_sanitize, hasBareDollar_replaceDollar, fun s => ⟨?_, ?_⟩⟩
  · intro h
    have h1 := length_replaceDollar (replaceDollar s)
    rw [h, length_replaceDollar s, count_dollar_replaceDollar] at h1
    have h2 : (replaceDollar s).count '$' = 0 := by
      rw [count_dollar_replaceDollar]; omega
    rw [count_dollar_replaceDollar] at h2
    exact List.count_eq_zero.mp h2
  · intro h
    simp only [replaceDollar_of_not_mem h]

/-- C9: `sanitize_resume_data` preserves the shape of its input — erasing
string contents commutes with sanitization, so dict keys, list lengths and
order, and every non-string leaf are preserved, and only string leaves are
modified; numbers, booleans and `None` are returned unchanged. -/
theorem sanitize_resume_data_preserves_shape :
    (∀ d : PyData, eraseStrings (sanitize_resume_data d) = eraseStrings d) ∧
    (∀ q : ℚ, sanitize_resume_data (.num q) = .num q) ∧
    (∀ b : Bool, sanitize_resume_data (.boolV b) = .boolV b) ∧
    sanitize_resume_data .null = .null :=
  ⟨eraseStrings_sanitize, fun _ => rfl, fun _ => rfl, rfl⟩

/-! ## Claim C2 (render housekeeping) -/

/-- C2 (code bug): the housekeeping step of `run_render_script` keys its
keep-set on a *fresh* `datetime.now()` timestamp instead of the timestamp
under which `build_resume` just saved the YAML files.  Whenever the clock
ticks to the next second between the two calls, all four files of the current
run are deleted (first conjunct); only when the two timestamps happen to
coincide are they preserved (second conjunct). -/
theorem render_cleanup_deletes_current_run_yamls :
    cleanupSurvivors "yamlfiles"
        (themes.map (yamlFilename "JaneDoe" "20250101_120000"))
        "JaneDoe" "20250101_120001" = [] ∧
    cleanupSurvivors "yamlfiles"
        (themes.map (yamlFilename "JaneDoe" "20250101_120000"))
        "JaneDoe" "20250101_120000" =
      themes.map (yamlFilename "JaneDoe" "20250101_120000") := by
  constructor <;> decide

/-! ## Claim C6 (render reconciliation) -/

/-- C6: when the render script exits cleanly but the output directory holds
exactly 3 PDF files instead of 4, `run_render_script` reports failure with an
empty artifact list and the diagnostic naming the expected count 4 and the
actual count 3 (no exception is raised: the embedding is a total function). -/
theorem render_reconcile_three_of_four (r : RenderRun)
    (h0 : r.returncode = 0)
    (h3 : (r.outputFiles.filter (fun f => ".pdf".data.isSuffixOf f.data)).length = 3) :
    run_render_reconcile r = (false, "Expected 4 PDFs, but found 3", []) := by
  simp only [run_render_reconcile, h0, h3]
  norm_num
  rfl

/-- Witness for C6 at a concrete run with three produced PDFs. -/
theorem render_reconcile_three_of_four_witness :
    run_render_reconcile ⟨0, "", ["classic_a.pdf", "moderncv_a.pdf", "sb2nov_a.pdf"]⟩ =
      (false, "Expected 4 PDFs, but found 3", []) :=
  render_reconcile_three_of_four
    ⟨0, "", ["classic_a.pdf", "moderncv_a.pdf", "sb2nov_a.pdf"]⟩ rfl (by decide)

/-! ## Claim C7 (GPA highlight) -/

/-- C7 counterexample: an education entry with non-empty school and a
*present* `gpa` of `0.0` gets no `highlights` at all, because `if
edu.get("gpa")` treats `0.0` as falsy — refuting the claim that presence of
the field suffices. -/
theorem gpa_zero_highlight_missing :
    eduGpaZero.school ≠ "" ∧ eduGpaZero.gpa.isSome = true ∧
    buildEduEntry eduGpaZero =
      some ⟨"State U", "Undergraduate", some "Springfield, VA", none⟩ := by
  refine ⟨by decide, by decide, by decide⟩

/-- C7 (amended): for an education entry with non-empty school whose `gpa`
is present *and non-zero*, the assembled entry carries the highlight list
`["GPA: {gpa}/{gpa_max}"]`. -/
theorem gpa_highlight_when_nonzero (edu : EduInput) (g : ℚ)
    (hs : edu.school ≠ "") (hg : edu.gpa = some g) (h0 : g ≠ 0) :
    (buildEduEntry edu).map EduOut.highlights =
      some (some ["GPA: " ++ floatStr g ++ "/" ++ floatStr edu.gpa_max]) := by
  simp [buildEduEntry, if_neg hs, hg, if_neg h0]

/-- Witness for C7 (amended) at a concrete entry with GPA 3.0 of 4.0. -/
theorem gpa_highlight_when_nonzero_witness :
    (buildEduEntry eduGpaThree).map EduOut.highlights =
      some (some ["GPA: " ++ floatStr 3 ++ "/" ++ floatStr eduGpaThree.gpa_max]) :=
  gpa_highlight_when_nonzero eduGpaThree 3 (by decide) rfl (by decide)

/-! ## Lemmas about the response parsers -/

theorem collectContent_flag_true (m : List Char) :
    ∀ L : List (List Char),
      collectContent m L true = L.filter (fun l => decide (pyStrip l ≠ m))
  | [] => rfl
  | l :: ls => by
    by_cases h : pyStrip l = m <;>
      simp [collectContent, h, collectContent_flag_true m ls]

theorem collectContent_flag_false (m : List Char) :
    ∀ L : List (List Char), collectContent m L false = linesAfterMarker m L
  | [] => rfl
  | l :: ls => by
    by_cases h : pyStrip l = m
    · simp [collectContent, h, linesAfterMarker, List.dropWhile_cons,
        collectContent_flag_true m ls]
    · simp [collectContent, h, linesAfterMarker, List.dropWhile_cons,
        collectContent_flag_false m ls]

theorem bioAccum_flag_true :
    ∀ L : List (List Char),
      bioAccum L true =
        concatTrail ((L.filter (fun l => decide (pyStrip l ≠ bioMarker))).map pyStrip)
  | [] => rfl
  | l :: ls => by
    by_cases h : pyStrip l = bioMarker <;>
      simp [bioAccum, h, concatTrail, bioAccum_flag_true ls]

theorem bioAccum_flag_false :
    ∀ L : List (List Char),
      bioAccum L false = concatTrail ((linesAfterMarker bioMarker L).map pyStrip)
  | [] => rfl
  | l :: ls => by
    by_cases h : pyStrip l = bioMarker
    · simp [bioAccum, h, linesAfterMarker, List.dropWhile_cons, bioAccum_flag_true ls]
    · simp [bioAccum, h, linesAfterMarker, List.dropWhile_cons, bioAccum_flag_false ls]

theorem concatTrail_eq_joinSep :
    ∀ xs : List (List Char), xs ≠ [] → concatTrail xs = joinSep ' ' xs ++ [' ']
  | [x], _ => rfl
  | x :: y :: xs, _ => by
    have ih := concatTrail_eq_joinSep (y :: xs) (by simp)
    show x ++ ' ' :: concatTrail (y :: xs) = (x ++ ' ' :: joinSep ' ' (y :: xs)) ++ [' ']
    rw [ih]
    simp

theorem pyStrip_append_space (y : List Char) : pyStrip (y ++ [' ']) = pyStrip y := by
  unfold pyStrip
  cases hz : y.dropWhile pySpace with
  | nil =>
    have hy := List.dropWhile_eq_nil_iff.mp hz
    have h1 : List.dropWhile pySpace (y ++ [' ']) = [] := by
      rw [List.dropWhile_eq_nil_iff]
      intro x hx
      rcases List.mem_append.mp hx with h | h
      · exact hy x h
      · simp only [List.mem_singleton] at h
        subst h
        rfl
    rw [h1]
  | cons a z =>
    have h1 : List.dropWhile pySpace (y ++ [' ']) = (a :: z) ++ [' '] := by
      rw [List.dropWhile_append, hz]
      simp
    rw [h1, List.reverse_append]
    have : List.dropWhile pySpace ([' '].reverse ++ (a :: z).reverse) =
        List.dropWhile pySpace ((a :: z).reverse) := by
      simp [List.dropWhile, pySpace]
    rw [this]

theorem collectContent_no_marker (m : List Char) :
    ∀ L : List (List Char), (∀ l ∈ L, pyStrip l ≠ m) →
      collectContent m L false = []
  | [], _ => rfl
  | l :: ls, h => by
    have h1 : pyStrip l ≠ m := h l (by simp)
    simp only [collectContent, if_neg h1, if_neg (Bool.false_ne_true)]
    exact collectContent_no_marker m ls (fun x hx => h x (by simp [hx]))

theorem bioAccum_no_marker :
    ∀ L : List (List Char), (∀ l ∈ L, pyStrip l ≠ bioMarker) →
      bioAccum L false = []
  | [], _ => rfl
  | l :: ls, h => by
    have h1 : pyStrip l ≠ bioMarker := h l (by simp)
    simp only [bioAccum, if_neg h1, if_neg (Bool.false_ne_true)]
    exact bioAccum_no_marker ls (fun x hx => h x (by simp [hx]))

/-! ## Claims C5, C8 (the response parsers) -/

/-- C5 counterexample: the bio parser does not feed the collected block to
the sanitizer.  On a response whose content line is `- hello`, the claimed
behaviour (collect, join with spaces, sanitize, trim — `bioClaimedOutput`,
built from the spec's words) yields `Hello.`, but `parse_bio` returns the
raw `- hello`. -/
theorem parse_bio_skips_sanitizer :
    parse_bio "### Professional Summary ###\n- hello" = "- hello" ∧
    bioClaimedOutput "### Professional Summary ###\n- hello" = "Hello." ∧
    parse_bio "### Professional Summary ###\n- hello" ≠
      bioClaimedOutput "### Professional Summary ###\n- hello" :=
  ⟨by decide, by decide, by decide⟩

/-- C5 (amended): the experience and activity parsers collect the lines
after the first line stripping to their marker (skipping any later marker
lines), join them with newlines, feed the block to `clean_bullet_points` and
return the stripped result; the bio parser collects the *stripped* lines
after its marker, joins them with single spaces and returns the stripped
result — without invoking the sanitizer. -/
theorem response_parsers_amended :
    (∀ t : String, parse_experience t = expSpecOutput t) ∧
    (∀ t : String, parse_activity t = actSpecOutput t) ∧
    (∀ t : String, parse_bio t = bioActualOutput t) := by
  refine ⟨fun t => ?_, fun t => ?_, fun t => ?_⟩
  · unfold parse_experience expSpecOutput
    rw [collectContent_flag_false]
  · unfold parse_activity actSpecOutput
    rw [collectContent_flag_false]
  · unfold parse_bio bioActualOutput
    rw [bioAccum_flag_false]
    cases hx : (linesAfterMarker bioMarker (splitlines t.data)).map pyStrip with
    | nil => rfl
    | cons a xs =>
      rw [concatTrail_eq_joinSep (a :: xs) (by simp), pyStrip_append_space]

/-- C8 counterexample: a response whose marker line carries leading
whitespace contains no line *equal* to the marker, yet the parser matches the
stripped line and returns non-empty output instead of the claimed empty
string. -/
theorem padded_marker_still_parsed :
    (splitlines ("  ### Experience ###\nfoo").data).contains expMarker = false ∧
    parse_experience "  ### Experience ###\nfoo" = "Foo." ∧
    parse_experience "  ### Experience ###\nfoo" ≠ "" :=
  ⟨by decide, by decide, by decide⟩

/-- C8 (amended): if no line of the response *strips* to the kind's envelope
marker (the parsers match markers up to surrounding whitespace), the parser
returns the empty string; the embedding is a total function, so no exception
is raised. -/
theorem parsers_empty_when_marker_absent (t : String) :
    ((∀ l ∈ splitlines t.data, pyStrip l ≠ expMarker) → parse_experience t = "") ∧
    ((∀ l ∈ splitlines t.data, pyStrip l ≠ actMarker) → parse_activity t = "") ∧
    ((∀ l ∈ splitlines t.data, pyStrip l ≠ bioMarker) → parse_bio t = "") := by
  refine ⟨fun h => ?_, fun h => ?_, fun h => ?_⟩
  · unfold parse_experience
    rw [collectContent_no_marker expMarker _ h]
    rfl
  · unfold parse_activity
    rw [collectContent_no_marker actMarker _ h]
    rfl
  · unfold parse_bio
    rw [bioAccum_no_marker _ h]
    rfl

/-- Witness for C8 (amended): a marker-free response parses to `""` for all
three kinds. -/
theorem parsers_empty_when_marker_absent_witness :
    parse_experience "hello world" = "" ∧ parse_activity "hello world" = "" ∧
      parse_bio "hello world" = "" :=
  ⟨(parsers_empty_when_marker_absent "hello world").1 (by decide),
   (parsers_empty_when_marker_absent "hello world").2.1 (by decide),
   (parsers_empty_when_marker_absent "hello world").2.2 (by decide)⟩

/-! ## Lemmas about the final glyph pass and line splitting -/

theorem finalPass_all_not_glyph :
    ∀ l : List Char, ∀ st, (finalPass st l).all (fun c => !isGlyph c) = true := by
  intro l
  induction l with
  | nil => intro st; cases st <;> rfl
  | cons c rest ih =>
    intro st
    cases st with
    | norm =>
      by_cases h : isGlyph c
      · simp only [finalPass, h, if_true]
        exact ih _
      · simp only [finalPass, h, if_false, List.all_cons, Bool.not_eq_true']
        simp [h, ih _]
    | seenGlyph g =>
      by_cases h1 : pySpace c
      · simp only [finalPass, h1, if_true]
        exact ih _
      · by_cases h2 : isGlyph c
        · simp only [finalPass, h1, h2, if_false, if_true]
          exact ih _
        · simp only [finalPass, h1, h2, if_false, List.all_cons]
          simp [h2, ih _]
    | inWs =>
      by_cases h1 : pySpace c
      · simp only [finalPass, h1, if_true]
        exact ih _
      · by_cases h2 : isGlyph c
        · simp only [finalPass, h1, h2, if_false, if_true]
          exact ih _
        · simp only [finalPass, h1, h2, if_false, List.all_cons]
          simp [h2, ih _]

theorem splitGo_mem_no_newline :
    ∀ (rest : List Char) (acc l : List Char), '\n' ∉ acc →
      l ∈ splitGo acc rest → '\n' ∉ l := by
  intro rest
  induction rest with
  | nil =>
    intro acc l hacc hl
    simp only [splitGo, List.mem_singleton] at hl
    subst hl
    simpa using hacc
  | cons c r ih =>
    intro acc l hacc hl
    by_cases hc : c = '\n'
    · subst hc
      cases r with
      | nil =>
        simp only [splitGo, if_true, List.mem_singleton, reduceIte] at hl
        subst hl
        simpa using hacc
      | cons d ds =>
        simp only [splitGo, if_true, reduceIte] at hl
        rcases List.mem_cons.mp hl with h | h
        · subst h
          simpa using hacc
        · exact ih [] l (by simp) h
    · simp only [splitGo, if_neg hc] at hl
      have hacc2 : '\n' ∉ c :: acc := by
        intro hm
        rcases List.mem_cons.mp hm with h | h
        · exact hc h.symm
        · exact hacc h
      exact ih (c :: acc) l hacc2 hl

theorem splitlines_mem_no_newline {t l : List Char}
    (h : l ∈ splitlines t) : '\n' ∉ l := by
  cases t with
  | nil => simp [splitlines] at h
  | cons c cs => exact splitGo_mem_no_newline (c :: cs) [] l (by simp) h

theorem splitGo_of_no_newline :
    ∀ (rest acc : List Char), '\n' ∉ rest → splitGo acc rest = [acc.reverse ++ rest] := by
  intro rest
  induction rest with
  | nil => intro acc _; simp [splitGo]
  | cons c r ih =>
    intro acc h
    have hc : c ≠ '\n' := fun hc => h (by simp [hc])
    simp only [splitGo, if_neg hc]
    rw [ih (c :: acc) (fun hm => h (by simp [hm]))]
    simp

theorem joinSep_ne_nil :
    ∀ L : List (List Char), L ≠ [] → (∀ l ∈ L, l ≠ []) → joinSep '\n' L ≠ []
  | [x], _, h => by simpa [joinSep] using h x (by simp)
  | x :: y :: ls, _, _ => by
    show x ++ '\n' :: joinSep '\n' (y :: ls) ≠ []
    simp

theorem splitGo_append_newline :
    ∀ (a acc rest : List Char), '\n' ∉ a → rest ≠ [] →
      splitGo acc (a ++ '\n' :: rest) = (acc.reverse ++ a) :: splitGo [] rest := by
  intro a
  induction a with
  | nil =>
    intro acc rest _ hr
    cases rest with
    | nil => exact absurd rfl hr
    | cons d ds => simp [splitGo]
  | cons c a' ih =>
    intro acc rest h hr
    have hc : c ≠ '\n' := fun hc => h (by simp [hc])
    calc splitGo acc ((c :: a') ++ '\n' :: rest)
        = splitGo (c :: acc) (a' ++ '\n' :: rest) := by
          simp [splitGo, if_neg hc]
      _ = ((c :: acc).reverse ++ a') :: splitGo [] rest :=
          ih (c :: acc) rest (fun hm => h (by simp [hm])) hr
      _ = (acc.reverse ++ c :: a') :: splitGo [] rest := by simp

theorem splitlines_joinSep :
    ∀ L : List (List Char), (∀ l ∈ L, l ≠ [] ∧ '\n' ∉ l) →
      splitlines (joinSep '\n' L) = L
  | [], _ => rfl
  | [x], h => by
    obtain ⟨hx, hnl⟩ := h x (by simp)
    show splitlines x = [x]
    cases x with
    | nil => exact absurd rfl hx
    | cons c cs =>
      show splitGo [] (c :: cs) = [c :: cs]
      rw [splitGo_of_no_newline (c :: cs) [] hnl]
      rfl
  | x :: y :: ls, h => by
    obtain ⟨hx, hnl⟩ := h x (by simp)
    have hrest : joinSep '\n' (y :: ls) ≠ [] :=
      joinSep_ne_nil (y :: ls) (by simp) (fun l hl => (h l (by simp [hl])).1)
    show splitlines (x ++ '\n' :: joinSep '\n' (y :: ls)) = x :: y :: ls
    cases x with
    | nil => exact absurd rfl hx
    | cons c cs =>
      show splitGo [] ((c :: cs) ++ '\n' :: joinSep '\n' (y :: ls)) = (c :: cs) :: y :: ls
      rw [splitGo_append_newline (c :: cs) [] _ hnl hrest]
      congr 1
      · have ih := splitlines_joinSep (y :: ls) (fun l hl => h l (by simp [hl]))
        cases hj : joinSep '\n' (y :: ls) with
        | nil => exact absurd hj hrest
        | cons d ds =>
          rw [hj] at ih
          exact ih

theorem processLines_cons (l : List Char) (ls : List (List Char)) :
    processLines (l :: ls) =
      if l = [] then processLines ls else processLine l :: processLines ls := by
  by_cases h : l = [] <;> simp [processLines, List.filterMap_cons, h]

theorem processLines_filter (L : List (List Char)) :
    processLines (L.filter (fun l => !l.isEmpty)) = processLines L := by
  induction L with
  | nil => rfl
  | cons l ls ih =>
    by_cases h : l = []
    · subst h
      rw [show (([] : List Char) :: ls).filter (fun l => !l.isEmpty) =
            ls.filter (fun l => !l.isEmpty) from by simp]
      rw [ih, processLines_cons]
      simp
    · have hne : (!l.isEmpty) = true := by
        cases l with
        | nil => exact absurd rfl h
        | cons a as => rfl
      have hf : List.filter (fun l => !l.isEmpty) (l :: ls) =
          l :: List.filter (fun l => !l.isEmpty) ls := List.filter_cons_of_pos hne
      rw [hf, processLines_cons, processLines_cons, if_neg h, if_neg h, ih]

/-! ## Claims C4, C10 (sanitizer output lines) -/

/-- C4 counterexample: the output of `clean_bullet_points` can contain blank
output: the middle input line `-` consists only of a bullet glyph, is reduced
to nothing by the bullet stripping, and is still emitted, producing an empty
line in the joined output; a whitespace-only input line is emitted verbatim
as a blank line. -/
theorem clean_bullet_points_blank_output_lines :
    clean_bullet_points "a\n-\nb" = "A.\n\nB." ∧
    (splitlines (clean_bullet_points "a\n-\nb").data).contains [] = true ∧
    clean_bullet_points " " = " " :=
  ⟨by decide, by decide, by decide⟩

/-- C4 (amended): input lines that are empty are dropped — removing the
empty lines from the input does not change the output of
`clean_bullet_points` — but the output may still contain empty or blank
lines (from glyph-only or whitespace-only input lines). -/
theorem clean_bullet_points_drops_empty_input_lines (t : String) :
    clean_bullet_points t = clean_bullet_points (removeEmptyLines t) := by
  unfold clean_bullet_points removeEmptyLines cleanCore
  congr 1
  have hsplit : splitlines (String.mk (joinSep '\n'
      ((splitlines t.data).filter (fun l => !l.isEmpty)))).data =
      (splitlines t.data).filter (fun l => !l.isEmpty) := by
    apply splitlines_joinSep
    intro l hl
    have hmem := List.mem_of_mem_filter hl
    have hp := List.of_mem_filter hl
    refine ⟨?_, splitlines_mem_no_newline hmem⟩
    cases l with
    | nil => simp at hp
    | cons a as => simp
  rw [hsplit, processLines_filter]

/-- C10: no character of the output of `clean_bullet_points` belongs to the
bullet glyph class — the final whole-text pass removes every glyph, wherever
it occurs; in particular hyphens inside words are removed
(`state-of-the-art` loses its hyphens). -/
theorem clean_bullet_points_no_glyphs :
    (∀ t : String, (clean_bullet_points t).data.all (fun c => !isGlyph c) = true) ∧
    clean_bullet_points "state-of-the-art" = "Stateoftheart." :=
  ⟨fun _ => finalPass_all_not_glyph _ _, by decide⟩

/-! ## Lemmas towards idempotence on already-clean text (C3) -/

theorem hasDDW_tail {c : Char} {l : List Char}
    (h : hasDigitDotWs (c :: l) = false) : hasDigitDotWs l = false := by
  cases l with
  | nil => rfl
  | cons b l2 =>
    cases l2 with
    | nil => rfl
    | cons d l3 =>
      simp only [hasDigitDotWs, Bool.or_eq_false_iff] at h
      exact h.2

theorem hasDDW_triple {a b w : Char} {l : List Char}
    (h : hasDigitDotWs (a :: b :: w :: l) = false)
    (ha : a.isDigit = true) (hb : b = '.') : pySpace w = false := by
  simp only [hasDigitDotWs, Bool.or_eq_false_iff, Bool.and_eq_false_iff] at h
  rcases h.1 with h1 | h1
  · rcases h1 with h1 | h1
    · rw [ha] at h1; exact absurd h1 (by simp)
    · rw [hb] at h1; exact absurd h1 (by simp)
  · exact h1

theorem numScan_id (lead : List Char) :
    ∀ l : List Char, hasDigitDotWs l = false →
      (numScan lead .normal l = l) ∧
      (∀ acc, (∀ w r, l = '.' :: w :: r → pySpace w = false) →
        numScan lead (.digits acc) l = acc.reverse ++ l) ∧
      (∀ acc, (∀ w r, l = w :: r → pySpace w = false) →
        numScan lead (.afterDot acc) l = acc.reverse ++ '.' :: l) := by
  intro l
  induction l with
  | nil =>
    intro _
    exact ⟨rfl, fun acc _ => by simp [numScan, numFlush],
      fun acc _ => by simp [numScan, numFlush]⟩
  | cons c rest ih =>
    intro hd
    obtain ⟨ihA, ihD, ihP⟩ := ih (hasDDW_tail hd)
    refine ⟨?_, ?_, ?_⟩
    · by_cases hc : c.isDigit = true
      · have condD2 : ∀ w r, rest = '.' :: w :: r → pySpace w = false := by
          intro w r hr
          rw [hr] at hd
          exact hasDDW_triple hd hc rfl
        simp [numScan, hc, ihD [c] condD2]
      · simp [numScan, hc, ihA]
    · intro acc hcond
      by_cases hc : c.isDigit = true
      · have condD2 : ∀ w r, rest = '.' :: w :: r → pySpace w = false := by
          intro w r hr
          rw [hr] at hd
          exact hasDDW_triple hd hc rfl
        simp [numScan, hc, ihD (c :: acc) condD2]
      · by_cases hdot : c = '.'
        · subst hdot
          have cond3 : ∀ w r, rest = w :: r → pySpace w = false := by
            intro w r hr
            exact hcond w r (by rw [hr])
          simp [numScan, hc, ihP acc cond3]
        · simp [numScan, hc, hdot, ihA]
    · intro acc hcond
      have hws : pySpace c = false := hcond c rest rfl
      by_cases hc : c.isDigit = true
      · have condD2 : ∀ w r, rest = '.' :: w :: r → pySpace w = false := by
          intro w r hr
          rw [hr] at hd
          exact hasDDW_triple hd hc rfl
        simp [numScan, hws, hc, ihD [c] condD2]
      · simp [numScan, hws, hc, ihA]

theorem isGlyph1_imp (c : Char) (h : isGlyph1 c = true) : isGlyph c = true := by
  simp only [isGlyph1, Bool.or_eq_true, beq_iff_eq] at h
  rcases h with (rfl | rfl) | rfl <;> decide

theorem sub1_id (c : Char) (rest : List Char) (hws : pySpace c = false)
    (hg1 : isGlyph1 c = false) (hddw : hasDigitDotWs (c :: rest) = false) :
    sub1 (c :: rest) = c :: rest := by
  have h1 : (c :: rest).takeWhile pySpace = [] := by
    simp [List.takeWhile_cons, hws]
  have h2 : (c :: rest).dropWhile pySpace = c :: rest := by
    simp [List.dropWhile_cons, hws]
  unfold sub1
  rw [h1, h2]
  simp only [hg1, if_false]
  exact (numScan_id [] (c :: rest) hddw).1

theorem sub2_id (c : Char) (rest : List Char) (hws : pySpace c = false)
    (hg : isGlyph c = false) : sub2 (c :: rest) = c :: rest := by
  have h2 : (c :: rest).dropWhile pySpace = c :: rest := by
    simp [List.dropWhile_cons, hws]
  unfold sub2
  rw [h2]
  simp [hg]

theorem sub3_id : ∀ l : List Char, (∀ c ∈ l, isGlyph c = false) →
    sub3 .norm l = l
  | [], _ => rfl
  | c :: rest, h => by
    have hc : isGlyph c = false := h c (by simp)
    simp [sub3, hc, sub3_id rest (fun x hx => h x (by simp [hx]))]

theorem capStep_id (c : Char) (rest : List Char) (hws : pySpace c = false)
    (hup : c.toUpper = c) : capStep (c :: rest) = c :: rest := by
  have h2 : (c :: rest).dropWhile pySpace = c :: rest := by
    simp [List.dropWhile_cons, hws]
  unfold capStep
  rw [h2]
  cases rest with
  | nil => simp [hup]
  | cons d ds =>
    have h1 : (c :: d :: ds).takeWhile pySpace = [] := by
      simp [List.takeWhile_cons, hws]
    simp [h1, hup]

theorem periodStep_id (l : List Char) (h : (pyStrip l).getLast? = some '.') :
    periodStep l = l := by
  have hne : pyStrip l ≠ [] := by
    intro h0
    rw [h0] at h
    simp at h
  unfold periodStep
  simp [hne, h]

theorem cleanLine_parts {c : Char} {rest : List Char}
    (h : cleanLineB (c :: rest) = true) :
    pySpace c = false ∧ c.toUpper = c ∧
      (∀ x ∈ c :: rest, isGlyph x = false ∧ x ≠ '\n') ∧
      hasDigitDotWs (c :: rest) = false ∧
      (pyStrip (c :: rest)).getLast? = some '.' := by
  simp only [cleanLineB, List.head?_cons, Bool.and_eq_true, Bool.not_eq_true',
    beq_iff_eq, List.all_eq_true] at h
  obtain ⟨⟨⟨⟨hws, hup⟩, hall⟩, hddw⟩, hlast⟩ := h
  refine ⟨hws, hup, ?_, hddw, hlast⟩
  intro x hx
  have := hall x hx
  simp only [Bool.and_eq_true, Bool.not_eq_true', beq_eq_false_iff_ne] at this
  exact this

theorem processLine_id (l : List Char) (h : cleanLineB l = true) :
    processLine l = l := by
  cases l with
  | nil => exact absurd h (by simp [cleanLineB])
  | cons c rest =>
    obtain ⟨hws, hup, hall, hddw, hlast⟩ := cleanLine_parts h
    have hgc : isGlyph c = false := (hall c (by simp)).1
    have hg1 : isGlyph1 c = false := by
      cases hq : isGlyph1 c
      · rfl
      · exact absurd (isGlyph1_imp c hq) (by simp [hgc])
    unfold processLine
    rw [sub1_id c rest hws hg1 hddw, sub2_id c rest hws hgc,
      sub3_id _ (fun x hx => (hall x hx).1), capStep_id c rest hws hup,
      periodStep_id _ hlast]

theorem finalPass_id : ∀ l : List Char, (∀ c ∈ l, isGlyph c = false) →
    finalPass .norm l = l
  | [], _ => rfl
  | c :: rest, h => by
    have hc : isGlyph c = false := h c (by simp)
    simp [finalPass, hc, finalPass_id rest (fun x hx => h x (by simp [hx]))]

theorem mem_joinSep {c sep : Char} :
    ∀ L : List (List Char), c ∈ joinSep sep L → c = sep ∨ ∃ l ∈ L, c ∈ l
  | [], h => by simp [joinSep] at h
  | [x], h => Or.inr ⟨x, by simp, h⟩
  | x :: y :: ls, h => by
    rcases List.mem_append.mp h with h1 | h1
    · exact Or.inr ⟨x, by simp, h1⟩
    · rcases List.mem_cons.mp h1 with h2 | h2
      · exact Or.inl h2
      · rcases mem_joinSep (y :: ls) h2 with h3 | ⟨l, hl, hc⟩
        · exact Or.inl h3
        · exact Or.inr ⟨l, List.mem_cons_of_mem _ hl, hc⟩

theorem processLines_id (L : List (List Char))
    (h : ∀ l ∈ L, cleanLineB l = true) : processLines L = L := by
  induction L with
  | nil => rfl
  | cons l ls ih =>
    have hl : cleanLineB l = true := h l (by simp)
    have hne : l ≠ [] := by
      intro h0
      rw [h0] at hl
      exact absurd hl (by simp [cleanLineB])
    rw [processLines_cons, if_neg hne, processLine_id l hl,
      ih (fun x hx => h x (by simp [hx]))]

/-! ## Claim C3 (sanitizer idempotence) -/

/-- C3 counterexample: `clean_bullet_points` is not idempotent.  On
`"1-. 2"` the first pass keeps `1-. 2` per line (no bullet prefix, and
`\d+\.\s+` does not match because `-` interrupts it), appends a period and
then the final glyph pass deletes the `-`, yielding `"1. 2."`; a second pass
now sees the ordinal pattern `1. ` and deletes it, yielding `"2."` — the
second pass both differs from the first and loses information. -/
theorem clean_bullet_points_not_idempotent :
    clean_bullet_points "1-. 2" = "1. 2." ∧
    clean_bullet_points (clean_bullet_points "1-. 2") = "2." ∧
    clean_bullet_points (clean_bullet_points "1-. 2") ≠
      clean_bullet_points "1-. 2" :=
  ⟨by decide, by decide, by decide⟩

/-- C3 (amended): `clean_bullet_points` is idempotent on already-clean
text: whenever every line is non-empty, newline-free, starts with a
non-whitespace character that uppercasing fixes, contains no bullet glyph
and no digit-period-whitespace sequence, and strips to end with a period,
the function returns the text unchanged (hence repeated application
agrees with a single one). -/
theorem clean_bullet_points_idempotent_on_clean (L : List (List Char))
    (h : ∀ l ∈ L, cleanLineB l = true) :
    clean_bullet_points ⟨joinSep '\n' L⟩ = ⟨joinSep '\n' L⟩ := by
  unfold clean_bullet_points cleanCore
  congr 1
  have hsplit : splitlines (String.mk (joinSep '\n' L)).data = L := by
    apply splitlines_joinSep
    intro l hl
    have hcl := h l hl
    constructor
    · intro h0
      rw [h0] at hcl
      exact absurd hcl (by simp [cleanLineB])
    · intro hmem
      cases l with
      | nil => simp at hmem
      | cons c rest =>
        exact absurd rfl ((cleanLine_parts hcl).2.2.1 '\n' hmem).2
  rw [hsplit, processLines_id L h]
  apply finalPass_id
  intro c hc
  rcases mem_joinSep L hc with h1 | ⟨l, hl, hcl⟩
  · subst h1
    rfl
  · cases l with
    | nil => simp at hcl
    | cons a as => exact ((cleanLine_parts (h _ hl)).2.2.1 c hcl).1

/-- Witness for C3 (amended) on a concrete two-line clean text. -/
theorem clean_bullet_points_idempotent_on_clean_witness :
    clean_bullet_points ⟨joinSep '\n' ["Led a team.".data, "Built tools.".data]⟩ =
      ⟨joinSep '\n' ["Led a team.".data, "Built tools.".data]⟩ :=
  clean_bullet_points_idempotent_on_clean
    ["Led a team.".data, "Built tools.".data] (by decide)
